import Mathlib

/-!
Verification of the liteassistant repository against its natural-language
specification.  The embedding below translates the JavaScript source of the
frontend (DeviceCard, DeviceDetail, ScheduleForm, SwitchTimer) into Lean
definitions; components of the system whose code is not part of the
repository snapshot (the backend topic matcher, scheduler, sustain state
machine and timer subsystem) are modelled from the specification text and
are marked as such in their doc comments.

JavaScript strings are modelled as lists of characters (`JStr`), so that
splitting on a separator character and joining with it are ordinary
structural recursions.  JSON-like payloads are modelled by the mutual
inductive `Json` / `JVals`: an object is an association list of key/value
pairs (JavaScript objects have unique keys at each level; where a proof
needs that fact it appears as an explicit well-formedness hypothesis).
Property access on a primitive value is modelled as absent.
-/

/-- JavaScript strings, modelled as lists of characters. -/
abbrev JStr := List Char

/-- Build a `JStr` from a Lean string literal. -/
def cs (s : String) : JStr := s.data

/-- `splitDot s` models JavaScript `s.split('.')`. -/
def splitDot : JStr → List JStr
  | [] => [[]]
  | c :: rest =>
    if c = '.' then [] :: splitDot rest
    else
      match splitDot rest with
      | [] => [[c]]
      | p :: ps => (c :: p) :: ps

/-- Join a list of segments with `'.'` (inverse of `splitDot` on dot-free
segments). -/
def joinDot : List JStr → JStr
  | [] => []
  | [p] => p
  | p :: ps => p ++ '.' :: joinDot ps

mutual
/-- A JSON-like payload value: scalar (string, number, boolean, null) or a
nested object. -/
inductive Json where
  | str : JStr → Json
  | num : Rat → Json
  | bool : Bool → Json
  | null : Json
  | obj : JVals → Json

/-- The entries of a JSON object, in insertion order. -/
inductive JVals where
  | nil : JVals
  | cons : JStr → Json → JVals → JVals
end

/-- `typeof v === 'object' && v !== null` for our payload values. -/
def isObj : Json → Bool
  | .obj _ => true
  | _ => false

/-- JavaScript property lookup `o[key]` on an object's entry list. -/
def lookupJ : JVals → JStr → Option Json
  | .nil, _ => none
  | .cons k v rest, key => if k = key then some v else lookupJ rest key

/-- The path-walking loop inside `findValue` (src/unnamed/part_004,
lines 322-331): follow each segment through nested objects, absent as soon
as a segment is missing or the current value is not an object. -/
def walkPath : Json → List JStr → Option Json
  | j, [] => some j
  | .obj m, p :: ps =>
    match lookupJ m p with
    | some v => walkPath v ps
    | none => none
  | _, _ :: _ => none

mutual
/-- `findValue` from src/unnamed/part_004 lines 317-341: direct property
hit first; otherwise, if the key contains a dot, walk the dotted path;
otherwise search the key depth-first through nested objects. -/
def findValue : Json → JStr → Option Json
  | .obj m, key =>
    match lookupJ m key with
    | some v => some v
    | none =>
      if key.contains '.' then walkPath (.obj m) (splitDot key)
      else searchChildren m key
  | _, _ => none

/-- The `for (const k in obj)` recursive-search loop of `findValue`
(lines 334-339): try each object-valued entry in order. -/
def searchChildren : JVals → JStr → Option Json
  | .nil, _ => none
  | .cons _ v rest, key =>
    match v with
    | .obj m2 =>
      match findValue (.obj m2) key with
      | some r => some r
      | none => searchChildren rest key
    | _ => searchChildren rest key
end

/-- `prefix ? prefix + "." + k : k` from `getAllKeys`. -/
def joinKey (pfx k : JStr) : JStr := if pfx = [] then k else pfx ++ '.' :: k

mutual
/-- `getAllKeys` from src/unnamed/part_004 lines 134-144 (the identical
copy is at src/frontend/src/pages/DeviceDetail.jsx lines 445-457): flatten
a payload into dotted keys, recursing through object values and emitting a
dotted key for every non-object leaf. -/
def getAllKeys : Json → JStr → List JStr
  | .obj m, pfx => keysOfVals m pfx
  | _, _ => []

/-- The entry loop of `getAllKeys`. -/
def keysOfVals : JVals → JStr → List JStr
  | .nil, _ => []
  | .cons k v rest, pfx =>
    (match v with
     | .obj m2 => keysOfVals m2 (joinKey pfx k)
     | _ => [joinKey pfx k]) ++ keysOfVals rest pfx
end

mutual
/-- The leaf paths of a payload, as lists of segments (the segment-level
counterpart of `getAllKeys`). -/
def pathsJson : Json → List (List JStr)
  | .obj m => pathsVals m
  | _ => []

/-- Entry loop of `pathsJson`. -/
def pathsVals : JVals → List (List JStr)
  | .nil => []
  | .cons k v rest =>
    (match v with
     | .obj m2 => (pathsVals m2).map (fun p => k :: p)
     | _ => [[k]]) ++ pathsVals rest
end

/-- `true` iff no entry of `m` has the key `k`. -/
def keyAbsent : JVals → JStr → Bool
  | .nil, _ => true
  | .cons k _ rest, key => (k ≠ key : Bool) && keyAbsent rest key

mutual
/-- Well-formedness of a payload as a JavaScript object tree: at every
level keys are pairwise distinct (as JavaScript objects guarantee),
nonempty, and contain no literal `'.'`. -/
def wfJson : Json → Bool
  | .obj m => wfVals m
  | _ => true

/-- Entry-list part of `wfJson`. -/
def wfVals : JVals → Bool
  | .nil => true
  | .cons k v rest =>
    (k ≠ [] : Bool) && !(k.contains '.') && keyAbsent rest k
      && wfJson v && wfVals rest
end

mutual
/-- Keys at every level are pairwise distinct (no requirement on their
characters): the structural guarantee of JavaScript objects. -/
def nodupKeysJson : Json → Bool
  | .obj m => nodupKeysVals m
  | _ => true

/-- Entry-list part of `nodupKeysJson`. -/
def nodupKeysVals : JVals → Bool
  | .nil => true
  | .cons k v rest => keyAbsent rest k && nodupKeysJson v && nodupKeysVals rest
end

/-- Top-level keys of an object contain no literal `'.'`. -/
def topKeysNoDot : JVals → Bool
  | .nil => true
  | .cons k _ rest => !(k.contains '.') && topKeysNoDot rest

/-- The keys of an object's entry list, in order. -/
def jkeys : JVals → List JStr
  | .nil => []
  | .cons k _ rest => k :: jkeys rest

/-- `splitSlash s` models splitting a topic string on `'/'` (JavaScript
`s.split('/')`). -/
def splitSlash : JStr → List JStr
  | [] => [[]]
  | c :: rest =>
    if c = '/' then [] :: splitSlash rest
    else
      match splitSlash rest with
      | [] => [[c]]
      | p :: ps => (c :: p) :: ps

/-- Modelled from the spec: the backend Topic Matcher (spec 4.1) is not in
the repository snapshot (only the frontend is), so its token matcher is
taken from the specification's words: `+` matches exactly one arbitrary
token, `#` is only valid as the final pattern token and matches zero or
more trailing tokens, other tokens must be equal, and a length mismatch is
a non-match except under a `#` suffix. -/
def matchTokens : List JStr → List JStr → Bool
  | [], ts => ts.isEmpty
  | p :: ps, ts =>
    if p = ['#'] then ps.isEmpty
    else
      match ts with
      | [] => false
      | t :: ts2 => (p == ['+'] || p == t) && matchTokens ps ts2

/-- Modelled from the spec: `matches(pattern, topic)` of the Topic
Matcher, with pattern and topic as `/`-delimited token sequences. -/
def topicMatches (pattern topic : JStr) : Bool :=
  matchTokens (splitSlash pattern) (splitSlash topic)

/-- A pattern token accepts a topic token when it is the single-level
wildcard or equal to it (declarative reading of spec 4.1). -/
def plusOrEq (p t : JStr) : Prop := p = ['+'] ∨ p = t

/-- Declarative matching relation from the claim's words: either the
pattern is `#`-free and accepts the topic position-wise at equal length,
or it is a `#`-free front followed by a final `#` accepting a prefix of
the topic position-wise with arbitrary trailing tokens. -/
def declMatch (ps ts : List JStr) : Prop :=
  (['#'] ∉ ps ∧ List.Forall₂ plusOrEq ps ts)
  ∨ ∃ front pre suf, ps = front ++ [['#']] ∧ ['#'] ∉ front
      ∧ ts = pre ++ suf ∧ List.Forall₂ plusOrEq front pre

/-- The per-rule state of a DeviceStateTrigger: condition currently false;
condition true since a timestamp, sustain window not yet elapsed; or
fired while the condition remains continuously true. -/
inductive SustainState where
  | unmet : SustainState
  | pending : Nat → SustainState
  | fired : SustainState

/-- Modelled from the spec: the Automation Engine's per-rule sustain state
machine (spec 4.5) is not in the repository snapshot; one evaluation step
at time `now` (minutes) with condition value `cond` follows
`Unmet → PendingSustain → Fired`, with `PendingSustain → Unmet` on a false
evaluation before the window elapses and `Fired → Unmet` once the
condition later evaluates false; the returned flag reports whether this
transition fires the rule. -/
def sustainStep (sustain : Nat) (st : SustainState) (now : Nat)
    (cond : Bool) : SustainState × Bool :=
  match st, cond with
  | .unmet, true =>
    if sustain = 0 then (.fired, true) else (.pending now, false)
  | .unmet, false => (.unmet, false)
  | .pending t0, true =>
    if sustain ≤ now - t0 then (.fired, true) else (.pending t0, false)
  | .pending _, false => (.unmet, false)
  | .fired, true => (.fired, false)
  | .fired, false => (.unmet, false)

/-- Run the sustain state machine over a timed trace of condition
evaluations, returning the firing times and the final state. -/
def runSustain (sustain : Nat) :
    SustainState → List (Nat × Bool) → List Nat × SustainState
  | st, [] => ([], st)
  | st, (t, c) :: rest =>
    let s2 := sustainStep sustain st t c
    let r := runSustain sustain s2.1 rest
    (if s2.2 then t :: r.1 else r.1, r.2)

/-- The firing times of a sustain rule over a trace. -/
def sustainFires (sustain : Nat) (st : SustainState)
    (evs : List (Nat × Bool)) : List Nat :=
  (runSustain sustain st evs).1

/-- Modelled from the spec: the Scheduler's interval evaluation (spec 4.6)
is not in the repository snapshot; at tick `t` (seconds since local
midnight) the run index is `n = t / interval`, the schedule fires when
entering a new `n` while `total_duration` (`0` = unbounded) has not yet
elapsed since local midnight, and the last fired index is remembered. -/
def intervalStep (interval total : Nat) (lastN : Option Nat) (t : Nat) :
    Option Nat × Bool :=
  if (total = 0 ∨ t ≤ total) ∧ lastN ≠ some (t / interval) then
    (some (t / interval), true)
  else (lastN, false)

/-- Run the interval schedule over a list of tick times, returning the
firing times. -/
def runInterval (interval total : Nat) :
    Option Nat → List Nat → List Nat
  | _, [] => []
  | lastN, t :: ts =>
    if (intervalStep interval total lastN t).2 then
      t :: runInterval interval total (intervalStep interval total lastN t).1 ts
    else runInterval interval total (intervalStep interval total lastN t).1 ts

/-- Modelled from the spec: the Timer Subsystem's `arm` (spec 4.4) is not
in the repository snapshot (the frontend only displays
`device.active_timers`, a map from switch name to one deadline, in
SwitchTimer and DeviceCard); arming cancels any existing timer for the
switch and stores the new deadline. -/
def armTimer (timers : List (String × Nat)) (sw : String)
    (deadline : Nat) : List (String × Nat) :=
  (sw, deadline) :: timers.filter (fun p => p.1 != sw)

/-- Lookup of a switch's armed deadline. -/
def lookupTimer : List (String × Nat) → String → Option Nat
  | [], _ => none
  | (k, d) :: rest, sw => if k = sw then some d else lookupTimer rest sw

/-- Code-unit lexicographic string order, as JavaScript compares
strings. -/
def strLeB : List Char → List Char → Bool
  | [], _ => true
  | _ :: _, [] => false
  | a :: as, b :: bs => if a = b then strLeB as bs else decide (a < b)

/-- JavaScript's default `Array.prototype.sort` comparator: elements are
compared as strings (code-unit lexicographic order of their decimal
representations, for numbers). -/
def jsStrLe (a b : Nat) : Bool := strLeB (Nat.repr a).data (Nat.repr b).data

/-- `toggleDay` from src/frontend/src/components/ScheduleForm.jsx lines
93-105: remove the day if selected, else append it and re-sort with the
default (string-comparing) JavaScript sort. -/
def toggleDay (days : List Nat) (day : Nat) : List Nat :=
  if day ∈ days then days.filter (fun d => d != day)
  else (days ++ [day]).mergeSort jsStrLe

/-- `handleSensorToggle` from src/unnamed/part_004 lines 106-114: a
selected key is removed; an unselected key is added only while fewer than
three sensors are selected. -/
def handleSensorToggle (selectedSensors : List String) (key : String) :
    List String :=
  if key ∈ selectedSensors then selectedSensors.filter (fun k => k != key)
  else if selectedSensors.length < 3 then selectedSensors ++ [key]
  else selectedSensors

/-- `handleCheckboxChange` from src/frontend/src/pages/DeviceDetail.jsx
lines 462-472: a selected key is removed; adding is refused at three or
more selected keys, else the key is appended. -/
def handleCheckboxChange (currentConfig : List String) (key : String) :
    List String :=
  if key ∈ currentConfig then currentConfig.filter (fun k => k != key)
  else if 3 ≤ currentConfig.length then currentConfig
  else currentConfig ++ [key]

/-- The outcome of a toggle press: a device command (command name and
payload) posted immediately, or a pending channel recorded for explicit
confirmation. -/
inductive ToggleOutcome where
  | send : String → String → ToggleOutcome
  | confirm : String → ToggleOutcome

/-- Lookup of a power channel's state among the device attributes. -/
def lookupAttr : List (String × String) → String → Option String
  | [], _ => none
  | (k, v) :: rest, key => if k = key then some v else lookupAttr rest key

/-- `device.attributes?.[command] || 'OFF'` from `handleToggle`
(src/unnamed/part_004 line 57): a missing attribute — or a falsy one such
as the empty string — defaults to "OFF". -/
def currentStateFor (attrs : List (String × String)) (command : String) :
    String :=
  match lookupAttr attrs command with
  | some s => if s = "" then "OFF" else s
  | none => "OFF"

/-- `handleToggle` from src/unnamed/part_004 lines 54-67 together with
`executeToggle` (lines 69-78): when the channel is on ("ON" or "1") and
the device is protected, the channel is recorded as pending confirmation
and no command is sent; otherwise the TOGGLE command is posted at once. -/
def handleToggle (isProtected : Bool) (attrs : List (String × String))
    (command : String) : ToggleOutcome :=
  if (currentStateFor attrs command == "ON"
      || currentStateFor attrs command == "1") && isProtected then
    .confirm command
  else .send command "TOGGLE"

theorem contains_iff (l : List Char) (c : Char) : l.contains c = true ↔ c ∈ l := by
  simp [List.contains]

theorem isObj_true_iff (v : Json) : isObj v = true ↔ ∃ m, v = .obj m := by
  cases v <;> simp [isObj]

theorem splitDot_ne_nil (s : JStr) : splitDot s ≠ [] := by
  cases s with
  | nil => simp [splitDot]
  | cons c rest =>
    rw [splitDot]
    split
    · simp
    · split <;> simp

theorem splitDot_noDot (s : JStr) (h : '.' ∉ s) : splitDot s = [s] := by
  induction s with
  | nil => rfl
  | cons c rest ih =>
    have hc : ¬ c = '.' := fun hc => h (hc ▸ List.mem_cons_self c rest)
    have hrest : '.' ∉ rest := fun hm => h (List.mem_cons_of_mem c hm)
    rw [splitDot, if_neg hc, ih hrest]

theorem splitDot_append (s t : JStr) (h : '.' ∉ s) :
    splitDot (s ++ '.' :: t) = s :: splitDot t := by
  induction s with
  | nil => simp [splitDot]
  | cons c rest ih =>
    have hc : ¬ c = '.' := fun hc => h (hc ▸ List.mem_cons_self c rest)
    have hrest : '.' ∉ rest := fun hm => h (List.mem_cons_of_mem c hm)
    rw [List.cons_append, splitDot, if_neg hc, ih hrest]

theorem joinDot_cons_cons (p q : JStr) (ps : List JStr) :
    joinDot (p :: q :: ps) = p ++ '.' :: joinDot (q :: ps) := rfl

theorem splitDot_joinDot (ps : List JStr) (h : ps ≠ [])
    (h2 : ∀ p ∈ ps, '.' ∉ p) : splitDot (joinDot ps) = ps := by
  induction ps with
  | nil => exact absurd rfl h
  | cons p rest ih =>
    cases rest with
    | nil => exact splitDot_noDot p (h2 p (List.mem_cons_self p []))
    | cons q ps2 =>
      rw [joinDot_cons_cons, splitDot_append _ _ (h2 p (List.mem_cons_self p _))]
      rw [ih (by simp) (fun x hx => h2 x (List.mem_cons_of_mem p hx))]

theorem keyAbsent_iff (m : JVals) (key : JStr) :
    keyAbsent m key = true ↔ key ∉ jkeys m := by
  cases m with
  | nil => simp [keyAbsent, jkeys]
  | cons k v rest =>
    rw [keyAbsent]
    simp only [Bool.and_eq_true, decide_eq_true_eq, keyAbsent_iff rest key,
      jkeys, List.mem_cons]
    constructor
    · rintro ⟨hk, hr⟩ (rfl | hm)
      · exact hk rfl
      · exact hr hm
    · intro h
      exact ⟨fun hk => h (Or.inl hk.symm), fun hm => h (Or.inr hm)⟩

theorem lookupJ_none_iff (m : JVals) (key : JStr) :
    lookupJ m key = none ↔ key ∉ jkeys m := by
  cases m with
  | nil => simp [lookupJ, jkeys]
  | cons k v rest =>
    rw [lookupJ]
    by_cases hk : k = key
    · subst hk; simp [jkeys]
    · simp only [if_neg hk, lookupJ_none_iff rest key, jkeys, List.mem_cons]
      constructor
      · rintro h (rfl | hm)
        · exact hk rfl
        · exact h hm
      · intro h hm
        exact h (Or.inr hm)

theorem topKeysNoDot_lookup_none (m : JVals) (hm : topKeysNoDot m = true)
    (key : JStr) (hk : key.contains '.' = true) : lookupJ m key = none := by
  cases m with
  | nil => rfl
  | cons k v rest =>
    rw [topKeysNoDot, Bool.and_eq_true] at hm
    rw [lookupJ, if_neg, topKeysNoDot_lookup_none rest hm.2 key hk]
    rintro rfl
    rw [hk] at hm
    simp at hm

theorem wfVals_cons_iff (k : JStr) (v : Json) (rest : JVals) :
    wfVals (.cons k v rest) = true ↔
      k ≠ [] ∧ k.contains '.' = false ∧ keyAbsent rest k = true
        ∧ wfJson v = true ∧ wfVals rest = true := by
  rw [wfVals]
  simp only [Bool.and_eq_true, Bool.not_eq_true', decide_eq_true_eq]
  constructor
  · rintro ⟨⟨⟨⟨h1, h2⟩, h3⟩, h4⟩, h5⟩
    exact ⟨h1, h2, h3, h4, h5⟩
  · rintro ⟨h1, h2, h3, h4, h5⟩
    exact ⟨⟨⟨⟨h1, h2⟩, h3⟩, h4⟩, h5⟩

theorem wfVals_topKeysNoDot (m : JVals) (hm : wfVals m = true) :
    topKeysNoDot m = true := by
  cases m with
  | nil => rfl
  | cons k v rest =>
    rw [wfVals_cons_iff] at hm
    rw [topKeysNoDot, Bool.and_eq_true, hm.2.1]
    exact ⟨rfl, wfVals_topKeysNoDot rest hm.2.2.2.2⟩

theorem keysOfVals_cons_obj (k : JStr) (m2 rest : JVals) (pfx : JStr) :
    keysOfVals (.cons k (.obj m2) rest) pfx
      = keysOfVals m2 (joinKey pfx k) ++ keysOfVals rest pfx := by
  rw [keysOfVals]

theorem keysOfVals_cons_prim (k : JStr) (v : Json) (rest : JVals) (pfx : JStr)
    (h : isObj v = false) :
    keysOfVals (.cons k v rest) pfx = joinKey pfx k :: keysOfVals rest pfx := by
  cases v <;> simp_all [keysOfVals, isObj]

theorem pathsVals_cons_obj (k : JStr) (m2 rest : JVals) :
    pathsVals (.cons k (.obj m2) rest)
      = (pathsVals m2).map (fun p => k :: p) ++ pathsVals rest := by
  rw [pathsVals]

theorem pathsVals_cons_prim (k : JStr) (v : Json) (rest : JVals)
    (h : isObj v = false) :
    pathsVals (.cons k v rest) = [k] :: pathsVals rest := by
  cases v <;> simp_all [pathsVals, isObj]

theorem contains_false_iff (l : List Char) (c : Char) :
    l.contains c = false ↔ c ∉ l := by
  rw [Bool.eq_false_iff]
  exact not_congr (contains_iff l c)

theorem wfJson_obj (m : JVals) : wfJson (.obj m) = wfVals m := by rw [wfJson]

theorem joinKey_nil (k : JStr) : joinKey [] k = k := by rw [joinKey, if_pos rfl]

theorem joinKey_assoc (pfx k q : JStr) (hk : k ≠ []) :
    joinKey (joinKey pfx k) q = joinKey pfx (k ++ '.' :: q) := by
  by_cases hp : pfx = []
  · subst hp
    simp [joinKey, hk]
  · have h2 : pfx ++ '.' :: k ≠ [] := by simp
    simp [joinKey, hp, h2]

theorem joinDot_cons_of_ne (k : JStr) (p : List JStr) (hp : p ≠ []) :
    joinDot (k :: p) = k ++ '.' :: joinDot p := by
  cases p with
  | nil => exact absurd rfl hp
  | cons q ps => exact joinDot_cons_cons k q ps

theorem paths_head (m : JVals) (p : List JStr) (hp : p ∈ pathsVals m) :
    ∃ k p2, p = k :: p2 ∧ k ∈ jkeys m := by
  cases m with
  | nil => simp [pathsVals] at hp
  | cons k v rest =>
    cases hobj : isObj v with
    | true =>
      obtain ⟨m2, rfl⟩ := (isObj_true_iff v).mp hobj
      rw [pathsVals_cons_obj] at hp
      rcases List.mem_append.mp hp with hp | hp
      · obtain ⟨q, hq, rfl⟩ := List.mem_map.mp hp
        exact ⟨k, q, rfl, by simp [jkeys]⟩
      · obtain ⟨k2, p2, rfl, hk2⟩ := paths_head rest _ hp
        exact ⟨k2, p2, rfl, by simp [jkeys, hk2]⟩
    | false =>
      rw [pathsVals_cons_prim _ _ _ hobj] at hp
      rcases List.mem_cons.mp hp with rfl | hp
      · exact ⟨k, [], rfl, by simp [jkeys]⟩
      · obtain ⟨k2, p2, rfl, hk2⟩ := paths_head rest _ hp
        exact ⟨k2, p2, rfl, by simp [jkeys, hk2]⟩
termination_by sizeOf m

theorem paths_ne_nil (m : JVals) (p : List JStr) (hp : p ∈ pathsVals m) :
    p ≠ [] := by
  obtain ⟨k, p2, rfl, -⟩ := paths_head m p hp
  simp

theorem paths_segments (m : JVals) (hm : wfVals m = true) (p : List JStr)
    (hp : p ∈ pathsVals m) : ∀ s ∈ p, s ≠ [] ∧ '.' ∉ s := by
  cases m with
  | nil => simp [pathsVals] at hp
  | cons k v rest =>
    rw [wfVals_cons_iff] at hm
    obtain ⟨hk, hdot, habs, hv, hrest⟩ := hm
    cases hobj : isObj v with
    | true =>
      obtain ⟨m2, rfl⟩ := (isObj_true_iff v).mp hobj
      rw [pathsVals_cons_obj] at hp
      rcases List.mem_append.mp hp with hp | hp
      · obtain ⟨q, hq, rfl⟩ := List.mem_map.mp hp
        intro s hs
        rcases List.mem_cons.mp hs with rfl | hs
        · exact ⟨hk, (contains_false_iff _ _).mp hdot⟩
        · exact paths_segments m2 (wfJson_obj m2 ▸ hv) q hq s hs
      · exact paths_segments rest hrest p hp
    | false =>
      rw [pathsVals_cons_prim _ _ _ hobj] at hp
      rcases List.mem_cons.mp hp with rfl | hp
      · intro s hs
        rcases List.mem_cons.mp hs with rfl | hs
        · exact ⟨hk, (contains_false_iff _ _).mp hdot⟩
        · simp at hs
      · exact paths_segments rest hrest p hp
termination_by sizeOf m

theorem keys_eq_paths (m : JVals) (pfx : JStr) (hm : wfVals m = true) :
    keysOfVals m pfx = (pathsVals m).map (fun p => joinKey pfx (joinDot p)) := by
  cases m with
  | nil => rfl
  | cons k v rest =>
    rw [wfVals_cons_iff] at hm
    obtain ⟨hk, hdot, habs, hv, hrest⟩ := hm
    cases hobj : isObj v with
    | true =>
      obtain ⟨m2, rfl⟩ := (isObj_true_iff v).mp hobj
      rw [keysOfVals_cons_obj, pathsVals_cons_obj, List.map_append, List.map_map]
      rw [keys_eq_paths m2 (joinKey pfx k) (wfJson_obj m2 ▸ hv)]
      rw [keys_eq_paths rest pfx hrest]
      congr 1
      apply List.map_congr_left
      intro p hp
      have hpne : p ≠ [] := paths_ne_nil m2 p hp
      simp only [Function.comp_apply]
      rw [joinDot_cons_of_ne k p hpne, joinKey_assoc pfx k _ hk]
    | false =>
      rw [keysOfVals_cons_prim _ _ _ _ hobj, pathsVals_cons_prim _ _ _ hobj]
      rw [List.map_cons, keys_eq_paths rest pfx hrest]
      rfl
termination_by sizeOf m

theorem walk_singleton (m : JVals) (k : JStr) :
    walkPath (.obj m) [k] = lookupJ m k := by
  cases h : lookupJ m k <;> simp [walkPath, h]

theorem walk_paths (m : JVals) (hm : wfVals m = true) (p : List JStr)
    (hp : p ∈ pathsVals m) :
    ∃ v, walkPath (.obj m) p = some v ∧ isObj v = false := by
  cases m with
  | nil => simp [pathsVals] at hp
  | cons k v rest =>
    rw [wfVals_cons_iff] at hm
    obtain ⟨hk, hdot, habs, hv, hrest⟩ := hm
    cases hobj : isObj v with
    | true =>
      obtain ⟨m2, rfl⟩ := (isObj_true_iff v).mp hobj
      rw [pathsVals_cons_obj] at hp
      rcases List.mem_append.mp hp with hp | hp
      · obtain ⟨q, hq, rfl⟩ := List.mem_map.mp hp
        obtain ⟨w, hw, hwo⟩ := walk_paths m2 (wfJson_obj m2 ▸ hv) q hq
        exact ⟨w, by simp [walkPath, lookupJ, hw], hwo⟩
      · obtain ⟨k2, p2, rfl, hk2mem⟩ := paths_head rest _ hp
        have hne : ¬ k = k2 :=
          fun h => ((keyAbsent_iff rest k).mp habs) (h ▸ hk2mem)
        obtain ⟨w, hw, hwo⟩ := walk_paths rest hrest _ hp
        refine ⟨w, ?_, hwo⟩
        simp only [walkPath, lookupJ, if_neg hne] at hw ⊢
        exact hw
    | false =>
      rw [pathsVals_cons_prim _ _ _ hobj] at hp
      rcases List.mem_cons.mp hp with rfl | hp
      · exact ⟨v, by simp [walkPath, lookupJ], hobj⟩
      · obtain ⟨k2, p2, rfl, hk2mem⟩ := paths_head rest _ hp
        have hne : ¬ k = k2 :=
          fun h => ((keyAbsent_iff rest k).mp habs) (h ▸ hk2mem)
        obtain ⟨w, hw, hwo⟩ := walk_paths rest hrest _ hp
        refine ⟨w, ?_, hwo⟩
        simp only [walkPath, lookupJ, if_neg hne] at hw ⊢
        exact hw
termination_by sizeOf m

/-- C1 (corrected): for payload objects whose top-level keys contain no
literal dot, extraction at a path containing a dot walks nested maps by
splitting the path on dots, returning the value reached by following each
segment and absent if any intermediate key is missing or an intermediate
value is not a map; in particular extracting "ENERGY.Power" from
{"ENERGY":{"Power":12.5}} yields 12.5 and extracting "X.Y" from the empty
object yields absent.  (The restriction on top-level keys is forced by the
direct-lookup branch of findValue, see the counterexample.) -/
theorem findValue_walks_dotted_path :
    (∀ (m : JVals) (key : JStr), topKeysNoDot m = true →
        key.contains '.' = true →
        findValue (.obj m) key = walkPath (.obj m) (splitDot key))
    ∧ findValue (.obj (.cons (cs "ENERGY")
        (.obj (.cons (cs "Power") (.num 12.5) .nil)) .nil)) (cs "ENERGY.Power")
        = some (.num 12.5)
    ∧ findValue (.obj .nil) (cs "X.Y") = none := by
  refine ⟨?_, rfl, rfl⟩
  intro m key hm hk
  have hnone := topKeysNoDot_lookup_none m hm key hk
  simp only [findValue, hnone, hk, if_true]

/-- Witness for C1: the general part of `findValue_walks_dotted_path`
applied at the payload {"A":{"B":1}} and path "A.B". -/
theorem findValue_walks_dotted_path_witness :
    topKeysNoDot (.cons (cs "A") (.obj (.cons (cs "B") (.num 1) .nil)) .nil)
        = true
    ∧ (cs "A.B").contains '.' = true
    ∧ findValue (.obj (.cons (cs "A") (.obj (.cons (cs "B") (.num 1) .nil))
        .nil)) (cs "A.B")
      = walkPath (.obj (.cons (cs "A") (.obj (.cons (cs "B") (.num 1) .nil))
        .nil)) (splitDot (cs "A.B")) :=
  ⟨by decide, by decide,
    findValue_walks_dotted_path.1 _ (cs "A.B") (by decide) (by decide)⟩

/-- Counterexample to C1 as stated: on the payload {"X.Y": 7} and the
dotted path "X.Y", the extractor returns 7 through its direct-lookup
branch, while following the path segments (intermediate key "X" is
missing) yields absent. -/
theorem findValue_direct_hit_ce :
    findValue (.obj (.cons (cs "X.Y") (.num 7) .nil)) (cs "X.Y")
        = some (.num 7)
    ∧ walkPath (.obj (.cons (cs "X.Y") (.num 7) .nil))
        (splitDot (cs "X.Y")) = none :=
  ⟨rfl, rfl⟩

/-- C2 (corrected): a top-level key whose name includes a literal dot IS
addressable through the extractor: whenever the requested path is itself a
top-level key of the payload, findValue returns its stored value (the
direct lookup precedes path splitting). -/
theorem findValue_top_key_addressable (m : JVals) (key : JStr) (v : Json)
    (h : lookupJ m key = some v) : findValue (.obj m) key = some v := by
  simp [findValue, h]

/-- Witness for C2: `findValue_top_key_addressable` applied at the payload
{"A.B": 5} and path "A.B". -/
theorem findValue_top_key_addressable_witness :
    lookupJ (.cons (cs "A.B") (.num 5) .nil) (cs "A.B") = some (.num 5)
    ∧ findValue (.obj (.cons (cs "A.B") (.num 5) .nil)) (cs "A.B")
        = some (.num 5) :=
  ⟨rfl, findValue_top_key_addressable _ (cs "A.B") (.num 5) rfl⟩

/-- Counterexample to C2 as stated: extracting the dotted path "A.B" from
{"A.B": 5} returns the stored value 5, not absent. -/
theorem findValue_dotted_key_hit_ce :
    findValue (.obj (.cons (cs "A.B") (.num 5) .nil)) (cs "A.B")
        = some (.num 5)
    ∧ findValue (.obj (.cons (cs "A.B") (.num 5) .nil)) (cs "A.B")
        ≠ none :=
  ⟨rfl, fun h => Option.noConfusion h⟩

/-- C8 (corrected): for an attributes object whose keys are, at every
level, pairwise distinct (as JavaScript objects guarantee), nonempty, and
free of literal dots, every dotted key produced by getAllKeys resolves via
findValue to the exact non-map leaf value located at that path, and
findValue never returns absent on such a key.  (Nonemptiness of keys is
forced by the counterexample.) -/
theorem getAllKeys_findValue_roundtrip (m : JVals) (hm : wfVals m = true)
    (key : JStr) (hk : key ∈ getAllKeys (.obj m) []) :
    ∃ v, findValue (.obj m) key = some v
      ∧ walkPath (.obj m) (splitDot key) = some v ∧ isObj v = false := by
  rw [getAllKeys, keys_eq_paths m [] hm] at hk
  obtain ⟨p, hp, rfl⟩ := List.mem_map.mp hk
  rw [joinKey_nil]
  have hsegs := paths_segments m hm p hp
  obtain ⟨w, hwalk, hwo⟩ := walk_paths m hm p hp
  obtain ⟨k, p2, rfl, hkmem⟩ := paths_head m p hp
  have hsplit : splitDot (joinDot (k :: p2)) = k :: p2 :=
    splitDot_joinDot _ (by simp) (fun s hs => (hsegs s hs).2)
  refine ⟨w, ?_, by rw [hsplit]; exact hwalk, hwo⟩
  cases p2 with
  | nil =>
    have hlift : lookupJ m k = some w := by
      rw [← walk_singleton]
      exact hwalk
    have hj : joinDot [k] = k := rfl
    rw [hj]
    simp [findValue, hlift]
  | cons s2 ps =>
    have hdotmem : '.' ∈ joinDot (k :: s2 :: ps) := by
      rw [joinDot_cons_cons]
      exact List.mem_append_right _ (List.mem_cons_self _ _)
    have hcont : (joinDot (k :: s2 :: ps)).contains '.' = true :=
      (contains_iff _ _).mpr hdotmem
    have hnone : lookupJ m (joinDot (k :: s2 :: ps)) = none :=
      topKeysNoDot_lookup_none m (wfVals_topKeysNoDot m hm) _ hcont
    simp only [findValue, hnone, hcont, if_true]
    rw [hsplit]
    exact hwalk

/-- Witness for C8: `getAllKeys_findValue_roundtrip` applied at the
payload {"A":{"B":1}} and its enumerated key "A.B". -/
theorem getAllKeys_findValue_roundtrip_witness :
    wfVals (.cons (cs "A") (.obj (.cons (cs "B") (.num 1) .nil)) .nil) = true
    ∧ (cs "A.B") ∈ getAllKeys (.obj (.cons (cs "A")
        (.obj (.cons (cs "B") (.num 1) .nil)) .nil)) []
    ∧ ∃ v, findValue (.obj (.cons (cs "A")
          (.obj (.cons (cs "B") (.num 1) .nil)) .nil)) (cs "A.B") = some v
        ∧ walkPath (.obj (.cons (cs "A")
          (.obj (.cons (cs "B") (.num 1) .nil)) .nil))
            (splitDot (cs "A.B")) = some v
        ∧ isObj v = false :=
  ⟨by decide, by decide,
    getAllKeys_findValue_roundtrip _ (by decide) (cs "A.B") (by decide)⟩

/-- Counterexample to C8 as stated: the payload
{"A":{"B":2}, "":{"B":1}} has keys free of literal dots, yet getAllKeys
enumerates the key "B" (for the leaf 1 under the empty key) while
findValue resolves "B" to 2 by its depth-first search, and no value at
all lies at the path "B" by segment walking. -/
theorem getAllKeys_findValue_ce :
    (cs "B") ∈ getAllKeys (.obj (.cons (cs "A")
        (.obj (.cons (cs "B") (.num 2) .nil)) (.cons (cs "")
        (.obj (.cons (cs "B") (.num 1) .nil)) .nil))) []
    ∧ findValue (.obj (.cons (cs "A")
        (.obj (.cons (cs "B") (.num 2) .nil)) (.cons (cs "")
        (.obj (.cons (cs "B") (.num 1) .nil)) .nil))) (cs "B")
        = some (.num 2)
    ∧ walkPath (.obj (.cons (cs "A")
        (.obj (.cons (cs "B") (.num 2) .nil)) (.cons (cs "")
        (.obj (.cons (cs "B") (.num 1) .nil)) .nil)))
        (splitDot (cs "B")) = none :=
  ⟨by decide, rfl, rfl⟩

theorem plusOrEq_bool (p t : JStr) :
    (p == ['+'] || p == t) = true ↔ plusOrEq p t := by
  simp [plusOrEq, Bool.or_eq_true]

theorem matchTokens_iff_decl (ps : List JStr) :
    ∀ ts, matchTokens ps ts = true ↔ declMatch ps ts := by
  induction ps with
  | nil =>
    intro ts
    rw [matchTokens]
    constructor
    · intro h
      have hts : ts = [] := by simpa using h
      subst hts
      exact Or.inl ⟨by simp, List.Forall₂.nil⟩
    · rintro (⟨-, hf⟩ | ⟨front, pre, suf, habs, -, -, -⟩)
      · have hts : ts = [] := List.forall₂_nil_left_iff.mp hf
        simp [hts]
      · exact absurd habs (by simp)
  | cons p ps ih =>
    intro ts
    by_cases hp : p = ['#']
    · subst hp
      simp only [matchTokens, if_pos rfl]
      cases ps with
      | nil =>
        simp only [List.isEmpty_nil]
        constructor
        · intro _
          exact Or.inr ⟨[], [], ts, rfl, by simp, by simp, List.Forall₂.nil⟩
        · intro _
          rfl
      | cons q ps2 =>
        simp only [List.isEmpty_cons]
        constructor
        · intro h
          exact absurd h (by simp)
        · rintro (⟨habs, -⟩ | ⟨front, pre, suf, heq, hnf, -, -⟩)
          · exact absurd (List.mem_cons_self _ _) habs
          · cases front with
            | nil => simp at heq
            | cons f0 front2 =>
              rw [List.cons_append, List.cons.injEq] at heq
              exact absurd (heq.1 ▸ List.mem_cons_self f0 front2) hnf
    · simp only [matchTokens, if_neg hp]
      cases ts with
      | nil =>
        constructor
        · intro h
          exact absurd h (by simp)
        · rintro (⟨-, hf⟩ | ⟨front, pre, suf, heq, -, hts, hf⟩)
          · have := List.forall₂_nil_right_iff.mp hf
            simp at this
          · have hpre : pre = [] := (List.append_eq_nil.mp hts.symm).1
            subst hpre
            have hfront : front = [] := List.forall₂_nil_right_iff.mp hf
            subst hfront
            rw [List.nil_append, List.cons.injEq] at heq
            exact absurd heq.1 hp
      | cons t ts2 =>
        rw [Bool.and_eq_true, plusOrEq_bool, ih ts2]
        constructor
        · rintro ⟨hpe, hdecl⟩
          rcases hdecl with ⟨habs, hf⟩ | ⟨front, pre, suf, rfl, hnf, rfl, hf⟩
          · refine Or.inl ⟨?_, List.Forall₂.cons hpe hf⟩
            intro hm
            rcases List.mem_cons.mp hm with h | h
            · exact hp h.symm
            · exact habs h
          · refine Or.inr ⟨p :: front, t :: pre, suf, rfl, ?_,
              rfl, List.Forall₂.cons hpe hf⟩
            intro hm
            rcases List.mem_cons.mp hm with h | h
            · exact hp h.symm
            · exact hnf h
        · rintro (⟨habs, hf⟩ | ⟨front, pre, suf, heq, hnf, hts, hf⟩)
          · obtain ⟨hpt, hf2⟩ := List.forall₂_cons.mp hf
            exact ⟨hpt, Or.inl ⟨fun hm => habs (List.mem_cons_of_mem _ hm), hf2⟩⟩
          · cases front with
            | nil =>
              rw [List.nil_append, List.cons.injEq] at heq
              exact absurd heq.1 hp
            | cons f0 front2 =>
              rw [List.cons_append, List.cons.injEq] at heq
              obtain ⟨rfl, rfl⟩ := heq
              obtain ⟨b, pre2, hpb, hf2, rfl⟩ :=
                List.forall₂_cons_left_iff.mp hf
              rw [List.cons_append, List.cons.injEq] at hts
              obtain ⟨rfl, rfl⟩ := hts
              exact ⟨hpb, Or.inr ⟨front2, pre2, suf, rfl,
                fun hm => hnf (List.mem_cons_of_mem _ hm), rfl, hf2⟩⟩

/-- C4 (confirmed, spec-modelled): for every pattern and topic split into
slash-delimited tokens, the matcher accepts exactly when non-wildcard
tokens are equal position-wise, where "+" matches exactly one arbitrary
token and "#" is only valid as the final pattern token and matches zero or
more trailing topic tokens; length mismatches are non-matches except for
the "#"-suffix case; and the four example matches of the spec hold. -/
theorem topic_matcher_correct :
    (∀ ps ts, matchTokens ps ts = true ↔ declMatch ps ts)
    ∧ topicMatches (cs "a/+/c") (cs "a/b/c") = true
    ∧ topicMatches (cs "a/#") (cs "a/b/c/d") = true
    ∧ topicMatches (cs "a/#") (cs "a") = true
    ∧ topicMatches (cs "a/+/c") (cs "a/b/x/c") = false :=
  ⟨matchTokens_iff_decl, by decide, by decide, by decide, by decide⟩

theorem runSustain_append (s : Nat) (st : SustainState)
    (xs ys : List (Nat × Bool)) :
    runSustain s st (xs ++ ys)
      = ((runSustain s st xs).1
           ++ (runSustain s (runSustain s st xs).2 ys).1,
         (runSustain s (runSustain s st xs).2 ys).2) := by
  induction xs generalizing st with
  | nil => simp [runSustain]
  | cons e rest ih =>
    obtain ⟨t, c⟩ := e
    simp only [List.cons_append, runSustain, List.append_eq]
    rw [ih]
    cases (sustainStep s st t c).2 <;> simp

theorem runSustain_fired_true (s : Nat) (ts : List Nat) :
    runSustain s .fired (ts.map (fun i => (i, true))) = ([], .fired) := by
  induction ts with
  | nil => rfl
  | cons t rest ih =>
    simp only [List.map_cons, runSustain, sustainStep]
    rw [ih]
    simp

/-- C3 (confirmed, spec-modelled): with sustain_minutes = 5 and the
condition evaluated each minute, the trace true at minutes 0-2, false at
minute 3, true again from minute 4 produces no firing through minute 5 (no
continuous 5-minute span); and every all-true trace of at least 6 minutes
starting at minute 0 fires exactly once, at minute 5, with no further
firing while the condition stays continuously true. -/
theorem sustain_rule_firing :
    sustainFires 5 .unmet
        [(0, true), (1, true), (2, true), (3, false), (4, true), (5, true)]
      = []
    ∧ ∀ k, sustainFires 5 .unmet
        ((List.range (6 + k)).map (fun i => (i, true))) = [5] := by
  refine ⟨rfl, fun k => ?_⟩
  rw [sustainFires, List.range_add, List.map_append, runSustain_append]
  have h1 : runSustain 5 SustainState.unmet
      ((List.range 6).map (fun i => (i, true))) = ([5], .fired) := rfl
  rw [h1, List.map_map]
  have h2 := runSustain_fired_true 5 ((List.range k).map (fun x => 6 + x))
  rw [List.map_map] at h2
  rw [h2]
  rfl

theorem runInterval_le_total (interval total : Nat) (htot : total ≠ 0)
    (lastN : Option Nat) (ticks : List Nat) (t : Nat)
    (ht : t ∈ runInterval interval total lastN ticks) : t ≤ total := by
  induction ticks generalizing lastN with
  | nil => simp [runInterval] at ht
  | cons t0 ts ih =>
    rw [runInterval] at ht
    by_cases hc : (total = 0 ∨ t0 ≤ total) ∧ lastN ≠ some (t0 / interval)
    · rw [intervalStep, if_pos hc] at ht
      simp only [if_true] at ht
      rcases List.mem_cons.mp ht with rfl | ht
      · rcases hc.1 with h | h
        · exact absurd h htot
        · exact h
      · exact ih _ ht
    · rw [intervalStep, if_neg hc] at ht
      simp only [Bool.false_eq_true, if_false] at ht
      exact ih _ ht

/-- C5 (confirmed, spec-modelled): an interval schedule of 10 seconds with
a 30-second total duration, evaluated every second from local midnight,
fires exactly at t = 0, 10, 20, 30 seconds (four runs, the run index being
t / interval and a fire happening on entering a new index), and no firing
time ever exceeds the total duration once it is nonzero. -/
theorem interval_schedule_fires :
    runInterval 10 30 none (List.range 61) = [0, 10, 20, 30]
    ∧ ∀ (ticks : List Nat) (lastN : Option Nat) (t : Nat),
        t ∈ runInterval 10 30 lastN ticks → t ≤ 30 :=
  ⟨by decide, fun ticks lastN t ht =>
    runInterval_le_total 10 30 (by decide) lastN ticks t ht⟩

/-- Witness for C5: the bound of `interval_schedule_fires` applied to the
firing time 10 of the concrete 61-tick run. -/
theorem interval_schedule_fires_witness :
    10 ∈ runInterval 10 30 none (List.range 61) ∧ 10 ≤ 30 :=
  ⟨by decide, interval_schedule_fires.2 (List.range 61) none 10 (by decide)⟩

/-- C6 (confirmed, spec-modelled for the arming half): active timers map
each switch name to at most one deadline — arming preserves key
uniqueness, the armed switch maps to the new deadline, and exactly one
entry for that switch remains (the new deadline replaces any old one
rather than coexisting with it). -/
theorem armTimer_replaces (timers : List (String × Nat)) (sw : String)
    (deadline : Nat) (hnd : (timers.map Prod.fst).Nodup) :
    ((armTimer timers sw deadline).map Prod.fst).Nodup
    ∧ lookupTimer (armTimer timers sw deadline) sw = some deadline
    ∧ (armTimer timers sw deadline).countP (fun p => p.1 == sw) = 1 := by
  refine ⟨?_, by simp [armTimer, lookupTimer], ?_⟩
  · rw [armTimer, List.map_cons]
    refine List.nodup_cons.mpr ⟨?_, ?_⟩
    · intro hm
      obtain ⟨p, hp, he⟩ := List.mem_map.mp hm
      have hb := (List.mem_filter.mp hp).2
      rw [bne_iff_ne] at hb
      exact hb he
    · exact hnd.sublist ((List.filter_sublist _).map Prod.fst)
  · rw [armTimer, List.countP_cons]
    have h0 : (timers.filter (fun p => p.1 != sw)).countP
        (fun p => p.1 == sw) = 0 := by
      rw [List.countP_eq_zero]
      intro p hp
      have hb := (List.mem_filter.mp hp).2
      rw [bne_iff_ne] at hb
      simp [hb]
    simp [h0]

/-- Witness for C6: `armTimer_replaces` applied to a one-timer map being
re-armed for the same switch. -/
theorem armTimer_replaces_witness :
    (([("POWER1", 5)] : List (String × Nat)).map Prod.fst).Nodup
    ∧ lookupTimer (armTimer [("POWER1", 5)] "POWER1" 60) "POWER1" = some 60
    ∧ (armTimer [("POWER1", 5)] "POWER1" 60).countP
        (fun p => p.1 == "POWER1") = 1 :=
  ⟨by decide,
   (armTimer_replaces [("POWER1", 5)] "POWER1" 60 (by decide)).2.1,
   (armTimer_replaces [("POWER1", 5)] "POWER1" 60 (by decide)).2.2⟩

theorem strLeB_total (x y : List Char) : (strLeB x y || strLeB y x) = true := by
  induction x generalizing y with
  | nil => simp [strLeB]
  | cons a as ih =>
    cases y with
    | nil => simp [strLeB]
    | cons b bs =>
      by_cases hab : a = b
      · subst hab
        simp only [strLeB, if_pos rfl]
        exact ih bs
      · simp only [strLeB, if_neg hab, if_neg (Ne.symm hab)]
        rcases lt_trichotomy a b with h | h | h
        · simp [h]
        · exact absurd h hab
        · simp [h]

theorem strLeB_trans (x y z : List Char) (h1 : strLeB x y = true)
    (h2 : strLeB y z = true) : strLeB x z = true := by
  induction x generalizing y z with
  | nil => simp [strLeB]
  | cons a as ih =>
    cases y with
    | nil => simp [strLeB] at h1
    | cons b bs =>
      cases z with
      | nil => simp [strLeB] at h2
      | cons c cs =>
        by_cases hab : a = b <;> by_cases hbc : b = c
        · subst hab
          subst hbc
          rw [strLeB, if_pos rfl] at h1 h2 ⊢
          exact ih bs cs h1 h2
        · subst hab
          rw [strLeB, if_neg hbc] at h2
          rw [strLeB, if_neg hbc]
          exact h2
        · subst hbc
          rw [strLeB, if_neg hab] at h1
          rw [strLeB, if_neg hab]
          exact h1
        · rw [strLeB, if_neg hab] at h1
          rw [strLeB, if_neg hbc] at h2
          rw [decide_eq_true_eq] at h1 h2
          have hac : a < c := lt_trans h1 h2
          rw [strLeB, if_neg (ne_of_lt hac), decide_eq_true_eq]
          exact hac

theorem jsStrLe_trans (a b c : Nat) (h1 : jsStrLe a b = true)
    (h2 : jsStrLe b c = true) : jsStrLe a c = true :=
  strLeB_trans _ _ _ h1 h2

theorem jsStrLe_total (a b : Nat) : (jsStrLe a b || jsStrLe b a) = true :=
  strLeB_total _ _

theorem jsStrLe_lt (a b : Nat) (ha : a ≤ 6) (hb : b ≤ 6)
    (hle : jsStrLe a b = true) (hne : a ≠ b) : a < b := by
  have key : ∀ x : Fin 7, ∀ y : Fin 7,
      jsStrLe x.1 y.1 = true → x.1 ≠ y.1 → x.1 < y.1 := by decide
  exact key ⟨a, by omega⟩ ⟨b, by omega⟩ hle hne

/-- C7 (confirmed): toggling a day preserves the invariant that
days_of_week is a duplicate-free, strictly sorted list of values in 0..6 —
removal filters the day out, insertion appends and re-sorts with the
JavaScript default (string-comparing) sort, which orders single-digit
values numerically; additionally a selected day is absent afterwards and
an unselected day is present afterwards. -/
theorem toggleDay_invariant (days : List Nat) (day : Nat)
    (hsort : List.Sorted (· < ·) days) (hall : ∀ d ∈ days, d ≤ 6)
    (hday : day ≤ 6) :
    List.Sorted (· < ·) (toggleDay days day)
    ∧ (toggleDay days day).Nodup
    ∧ (∀ d ∈ toggleDay days day, d ≤ 6)
    ∧ (day ∈ days → day ∉ toggleDay days day)
    ∧ (day ∉ days → day ∈ toggleDay days day) := by
  have hnd : days.Nodup := hsort.imp (fun h => ne_of_lt h)
  by_cases hmem : day ∈ days
  · rw [toggleDay, if_pos hmem]
    refine ⟨List.Pairwise.filter _ hsort, hnd.filter _, ?_, ?_, ?_⟩
    · intro d hd
      exact hall d (List.mem_of_mem_filter hd)
    · intro _ hcontra
      have hb := (List.mem_filter.mp hcontra).2
      simp at hb
    · intro h
      exact absurd hmem h
  · rw [toggleDay, if_neg hmem]
    have hperm := List.mergeSort_perm (days ++ [day]) jsStrLe
    have hmemapp : ∀ d ∈ (days ++ [day]).mergeSort jsStrLe, d ≤ 6 := by
      intro d hd
      rcases List.mem_append.mp (hperm.mem_iff.mp hd) with h | h
      · exact hall d h
      · rw [List.mem_singleton] at h
        subst h
        exact hday
    have hndapp : (days ++ [day]).Nodup := by
      rw [List.nodup_append]
      refine ⟨hnd, List.nodup_singleton day, ?_⟩
      intro a ha hb
      rw [List.mem_singleton] at hb
      subst hb
      exact hmem ha
    have hndres : ((days ++ [day]).mergeSort jsStrLe).Nodup :=
      hperm.nodup_iff.mpr hndapp
    have hpw : List.Pairwise (fun a b => jsStrLe a b = true)
        ((days ++ [day]).mergeSort jsStrLe) :=
      List.sorted_mergeSort jsStrLe_trans jsStrLe_total (days ++ [day])
    have hsorted : List.Sorted (· < ·) ((days ++ [day]).mergeSort jsStrLe) := by
      refine (hpw.and hndres).imp_of_mem ?_
      intro a b ha hb hab
      exact jsStrLe_lt a b (hmemapp a ha) (hmemapp b hb) hab.1 hab.2
    refine ⟨hsorted, hndres, hmemapp, fun h => absurd h hmem, fun _ => ?_⟩
    exact hperm.mem_iff.mpr (List.mem_append_right _ (List.mem_singleton.mpr rfl))

/-- Witness for C7: `toggleDay_invariant` applied to the sorted selection
[1, 3] and day 5. -/
theorem toggleDay_invariant_witness :
    List.Sorted (· < ·) (toggleDay [1, 3] 5) ∧ (toggleDay [1, 3] 5).Nodup
    ∧ (5 : Nat) ∈ toggleDay [1, 3] 5 :=
  ⟨(toggleDay_invariant [1, 3] 5 (by decide) (by decide) (by decide)).1,
   (toggleDay_invariant [1, 3] 5 (by decide) (by decide) (by decide)).2.1,
   (toggleDay_invariant [1, 3] 5 (by decide) (by decide)
      (by decide)).2.2.2.2 (by decide)⟩

/-- C9 (confirmed): the dashboard visible-sensors selection stays
duplicate-free and of size at most three under both toggle handlers, which
in fact compute the same function: a selected key is removed, an
unselected key is appended only while fewer than three are selected, and
at three selected keys an unselected key leaves the selection unchanged. -/
theorem sensor_selection_invariant (sel : List String) (key : String)
    (hnd : sel.Nodup) (hlen : sel.length ≤ 3) :
    (handleSensorToggle sel key).Nodup
    ∧ (handleSensorToggle sel key).length ≤ 3
    ∧ handleCheckboxChange sel key = handleSensorToggle sel key
    ∧ (key ∈ sel →
        handleSensorToggle sel key = sel.filter (fun k => k != key))
    ∧ (key ∉ sel → sel.length < 3 →
        handleSensorToggle sel key = sel ++ [key])
    ∧ (key ∉ sel → 3 ≤ sel.length →
        handleSensorToggle sel key = sel) := by
  by_cases hmem : key ∈ sel
  · rw [handleSensorToggle, if_pos hmem, handleCheckboxChange, if_pos hmem]
    exact ⟨hnd.filter _, le_trans (List.length_filter_le _ _) hlen, rfl,
      fun _ => rfl, fun h => absurd hmem h, fun h => absurd hmem h⟩
  · by_cases hlt : sel.length < 3
    · rw [handleSensorToggle, if_neg hmem, if_pos hlt,
        handleCheckboxChange, if_neg hmem, if_neg (by omega)]
      refine ⟨?_, ?_, rfl, fun h => absurd h hmem,
        fun _ _ => rfl, fun _ h => absurd hlt (by omega)⟩
      · rw [List.nodup_append]
        refine ⟨hnd, List.nodup_singleton key, ?_⟩
        intro a ha hb
        rw [List.mem_singleton] at hb
        subst hb
        exact hmem ha
      · rw [List.length_append, List.length_singleton]
        omega
    · rw [handleSensorToggle, if_neg hmem, if_neg hlt,
        handleCheckboxChange, if_neg hmem, if_pos (by omega)]
      exact ⟨hnd, hlen, rfl, fun h => absurd h hmem,
        fun _ h => absurd h hlt, fun _ _ => rfl⟩

/-- Witness for C9: `sensor_selection_invariant` applied to the selection
["Temperature"] and the key "Humidity". -/
theorem sensor_selection_invariant_witness :
    (handleSensorToggle ["Temperature"] "Humidity").Nodup
    ∧ (handleSensorToggle ["Temperature"] "Humidity").length ≤ 3 :=
  ⟨(sensor_selection_invariant ["Temperature"] "Humidity"
      (by decide) (by decide)).1,
   (sensor_selection_invariant ["Temperature"] "Humidity"
      (by decide) (by decide)).2.1⟩

/-- C10 (confirmed): handleToggle posts the TOGGLE command immediately if
and only if it is not the case that the device is protected and the
channel's current state is "ON" or "1"; when the device is protected and
the channel is on, the channel is recorded as pending confirmation instead
of sending a command; and a missing attribute defaults to "OFF". -/
theorem handleToggle_guard (isProtected : Bool)
    (attrs : List (String × String)) (command : String) :
    (handleToggle isProtected attrs command
        = .send command "TOGGLE"
      ↔ ¬(isProtected = true ∧ (currentStateFor attrs command = "ON"
            ∨ currentStateFor attrs command = "1")))
    ∧ ((isProtected = true ∧ (currentStateFor attrs command = "ON"
          ∨ currentStateFor attrs command = "1"))
        → handleToggle isProtected attrs command = .confirm command)
    ∧ (lookupAttr attrs command = none
        → currentStateFor attrs command = "OFF") := by
  have hbool : (((currentStateFor attrs command == "ON")
        || (currentStateFor attrs command == "1")) && isProtected) = true
      ↔ (isProtected = true ∧ (currentStateFor attrs command = "ON"
          ∨ currentStateFor attrs command = "1")) := by
    rw [Bool.and_eq_true, Bool.or_eq_true, beq_iff_eq, beq_iff_eq, And.comm]
  refine ⟨⟨?_, ?_⟩, ?_, ?_⟩
  · intro hsend hcond
    rw [handleToggle, if_pos (hbool.mpr hcond)] at hsend
    exact ToggleOutcome.noConfusion hsend
  · intro hnot
    rw [handleToggle, if_neg (fun hc => hnot (hbool.mp hc))]
  · intro hcond
    rw [handleToggle, if_pos (hbool.mpr hcond)]
  · intro hnone
    simp [currentStateFor, hnone]

/-- Witness for C10: `handleToggle_guard` applied to a protected device
whose channel POWER is "ON" (a confirmation is requested), and to a device
with no POWER attribute (the state defaults to "OFF"). -/
theorem handleToggle_guard_witness :
    handleToggle true [("POWER", "ON")] "POWER" = .confirm "POWER"
    ∧ currentStateFor [] "POWER" = "OFF" :=
  ⟨(handleToggle_guard true [("POWER", "ON")] "POWER").2.1 ⟨rfl, Or.inl rfl⟩,
   (handleToggle_guard true [] "POWER").2.2 rfl⟩
